import Mathlib

/-!
# Verification of the `bitty` bit-extraction/reconstruction library

The source (src/src/macros.rs) implements, for each unsigned width
`W ∈ {8, 16, 32, 64}` (via `impl_as_bits!`/`impl_from_bits!` macro instantiation):

* `as_bits(&self) -> Vec<bool>` — calls `as_bits_until_unchecked(W)`;
* `as_bits_until(&self, until) -> Vec<bool>` — `assert!(until <= W)` then
  calls the unchecked variant;
* `as_bits_until_unchecked(&self, until)` — for `i in 0..until`, computes
  `bit = self & (1 << i)` and pushes `bit >> i == 1`;
* `from_bits(bits: &[bool]) -> T` — `assert!(bits.len() <= W)` then calls
  the unchecked variant;
* `from_bits_unchecked(bits)` — starts from `val = 0` and, for each index
  `i` with `bits[i] = true`, performs `val = val | (1 << i)`.

We embed these shallowly over `Nat`.  A W-bit machine value is a `Nat`
`v` with `v < 2 ^ W`; all the bitwise operations the code performs
(`&`, `|`, `<<`, `>>`) agree with the corresponding `Nat` operations as
long as every shift amount is `< W`, which is exactly the condition under
which the Rust code is free of undefined behaviour.  Fallible behaviour —
an `assert!` panic in the checked entry points, or an out-of-width shift
(undefined behaviour, per the crate's own doc comments) in the unchecked
ones — is modelled by `Option`: `none` means the call does not produce a
result.  Crucially, in `from_bits_unchecked` the shift `1 << i` is only
evaluated when `bits[i]` is `true` (it sits inside the `if bit` branch),
and the embedding reproduces that evaluation order faithfully.
-/

/-- One extracted bit, exactly as the source computes it:
`bit = self & (1 << i)` followed by the test `bit >> i == 1`. -/
def bitAt (v i : Nat) : Bool :=
  (v &&& (1 <<< i)) >>> i == 1

/-- One iteration of the extraction loop.  Both shifts in the body are by
`i`; when `i ≥ W` the Rust shift is out of the type's width (undefined
behaviour), modelled as `none`. -/
def extractStep (W v i : Nat) : Option Bool :=
  if i < W then some (bitAt v i) else none

/-- `as_bits_until_unchecked`: the loop `for i in 0..until` pushing
`bit >> i == 1`, failing at the first out-of-width shift. -/
def as_bits_until_unchecked (W v u : Nat) : Option (List Bool) :=
  (List.range u).mapM (extractStep W v)

/-- `as_bits`: calls `as_bits_until_unchecked` with `until = W`
(the type's bit length, known at compile time). -/
def as_bits (W v : Nat) : Option (List Bool) :=
  as_bits_until_unchecked W v W

/-- `as_bits_until`: `assert!(until <= $length)` (panic modelled as `none`)
then the unchecked variant. -/
def as_bits_until (W v u : Nat) : Option (List Bool) :=
  if u ≤ W then as_bits_until_unchecked W v u else none

/-- The loop of `from_bits_unchecked`: `i` is the enumeration index,
`val` the accumulator.  The shift `1 << i` is evaluated only when the
current bit is `true`; an out-of-width shift (`i ≥ W`) is undefined
behaviour, modelled as `none`. -/
def fromBitsGo (W : Nat) : Nat → Nat → List Bool → Option Nat
  | _, val, [] => some val
  | i, val, b :: rest =>
    if b then
      if i < W then fromBitsGo W (i + 1) (val ||| (1 <<< i)) rest else none
    else
      fromBitsGo W (i + 1) val rest

/-- `from_bits_unchecked`: fold the enumerated slice starting from
`val = 0`. -/
def from_bits_unchecked (W : Nat) (bits : List Bool) : Option Nat :=
  fromBitsGo W 0 0 bits

/-- `from_bits`: `assert!(bits.len() <= $length)` (panic modelled as
`none`) then the unchecked variant. -/
def from_bits (W : Nat) (bits : List Bool) : Option Nat :=
  if bits.length ≤ W then from_bits_unchecked W bits else none

/-- Specification-side value of an LSB-first bit list. -/
def ofBits : List Bool → Nat
  | [] => 0
  | b :: rest => (if b then 1 else 0) + 2 * ofBits rest

/-! ## Helper lemmas -/

/-- The extraction formula of the source agrees with `Nat.testBit`. -/
lemma bitAt_eq_testBit (v i : Nat) : bitAt v i = v.testBit i := by
  rw [bitAt, Nat.one_shiftLeft, Nat.and_two_pow, Nat.shiftRight_eq_div_pow]
  cases h : v.testBit i <;>
    simp [Nat.div_self, Nat.pos_pow_of_pos]

/-- The extraction loop succeeds when every visited index is in range. -/
lemma mapM_extractStep_of_lt (W v : Nat) (l : List Nat)
    (h : ∀ i ∈ l, i < W) :
    l.mapM (extractStep W v) = some (l.map (bitAt v)) := by
  induction l with
  | nil => rfl
  | cons a l ih =>
    rw [List.mapM_cons, List.map_cons, extractStep,
      if_pos (h a (List.mem_cons_self a l)),
      ih (fun i hi => h i (List.mem_cons_of_mem a hi))]
    rfl

/-- The extraction loop fails as soon as some visited index is out of
range. -/
lemma mapM_extractStep_none (W v : Nat) (l : List Nat)
    (h : ∃ i ∈ l, W ≤ i) :
    l.mapM (extractStep W v) = none := by
  induction l with
  | nil => simp at h
  | cons a l ih =>
    rw [List.mapM_cons]
    by_cases ha : a < W
    · have hl : ∃ i ∈ l, W ≤ i := by
        obtain ⟨i, hi, hWi⟩ := h
        rcases List.mem_cons.mp hi with rfl | hi
        · omega
        · exact ⟨i, hi, hWi⟩
      rw [extractStep, if_pos ha, ih hl]
      rfl
    · rw [extractStep, if_neg ha]
      rfl

/-- In range, the unchecked extraction returns the `testBit` sequence. -/
lemma as_bits_until_unchecked_of_le (W v u : Nat) (h : u ≤ W) :
    as_bits_until_unchecked W v u =
      some ((List.range u).map (fun i => v.testBit i)) := by
  rw [as_bits_until_unchecked,
    mapM_extractStep_of_lt W v _ (fun i hi => lt_of_lt_of_le (List.mem_range.mp hi) h)]
  simp [bitAt_eq_testBit]

/-- Out of range, the unchecked extraction hits an out-of-width shift. -/
lemma as_bits_until_unchecked_none (W v u : Nat) (h : W < u) :
    as_bits_until_unchecked W v u = none := by
  rw [as_bits_until_unchecked]
  exact mapM_extractStep_none W v _ ⟨W, List.mem_range.mpr h, le_refl W⟩

/-- Or-ing in a two-power above a value adds it. -/
lemma lor_two_pow_of_lt (i : Nat) : ∀ val : Nat, val < 2 ^ i →
    val ||| 2 ^ i = val + 2 ^ i := by
  induction i with
  | zero =>
    intro val h
    interval_cases val
    decide
  | succ i ih =>
    intro val h
    have hb : Nat.bit val.bodd val.div2 = val := Nat.bit_decomp val
    have hp : (2 : Nat) ^ (i + 1) = Nat.bit false (2 ^ i) := by
      simp [Nat.bit_val, Nat.pow_succ, Nat.mul_comm]
    have hq : val.div2 < 2 ^ i := by
      have h2 : val.div2 = val / 2 := Nat.div2_val val
      have := Nat.pow_succ 2 i
      omega
    rw [← hb, hp, Nat.lor_bit, ih val.div2 hq]
    cases hbo : val.bodd <;>
      simp [Nat.bit_val, Nat.pow_succ] <;> ring

/-- Characterisation of the reconstruction loop: starting below `2 ^ i`
at index `i`, with every set bit of the remaining slice landing below
`W`, it returns the accumulator plus the slice's value shifted by `i`. -/
lemma fromBitsGo_eq (W : Nat) (bits : List Bool) :
    ∀ i val : Nat, val < 2 ^ i →
    (∀ j, bits.getD j false = true → i + j < W) →
    fromBitsGo W i val bits = some (val + ofBits bits * 2 ^ i) := by
  induction bits with
  | nil =>
    intro i val _ _
    simp [fromBitsGo, ofBits]
  | cons b rest ih =>
    intro i val hval hidx
    cases b with
    | false =>
      rw [fromBitsGo, if_neg (by simp)]
      have hrest : ∀ j, rest.getD j false = true → (i + 1) + j < W := by
        intro j hj
        have := hidx (j + 1) (by simpa using hj)
        omega
      rw [ih (i + 1) val (lt_of_lt_of_le hval (Nat.pow_le_pow_right (by norm_num) (Nat.le_succ i))) hrest]
      have : ofBits (false :: rest) * 2 ^ i = ofBits rest * 2 ^ (i + 1) := by
        simp [ofBits, Nat.pow_succ]
        ring
      rw [this]
    | true =>
      have hiW : i < W := by
        have := hidx 0 (by simp)
        omega
      rw [fromBitsGo, if_pos rfl, if_pos hiW, Nat.one_shiftLeft,
        lor_two_pow_of_lt i val hval]
      have hrest : ∀ j, rest.getD j false = true → (i + 1) + j < W := by
        intro j hj
        have := hidx (j + 1) (by simpa using hj)
        omega
      have hval2 : val + 2 ^ i < 2 ^ (i + 1) := by
        have := Nat.pow_succ 2 i
        omega
      rw [ih (i + 1) (val + 2 ^ i) hval2 hrest]
      have : val + 2 ^ i + ofBits rest * 2 ^ (i + 1) =
          val + ofBits (true :: rest) * 2 ^ i := by
        simp [ofBits, Nat.pow_succ]
        ring
      rw [this]

/-- A list index holding `true` is inside the list. -/
lemma getD_true_lt_length (bits : List Bool) (j : Nat)
    (h : bits.getD j false = true) : j < bits.length := by
  by_contra hj
  rw [List.getD_eq_default bits false (by omega)] at h
  exact Bool.false_ne_true h

/-- The unchecked reconstruction succeeds whenever every `true` element
sits at an index below `W`, and returns the value of the bit list. -/
lemma from_bits_unchecked_eq (W : Nat) (bits : List Bool)
    (h : ∀ j, bits.getD j false = true → j < W) :
    from_bits_unchecked W bits = some (ofBits bits) := by
  rw [from_bits_unchecked,
    fromBitsGo_eq W bits 0 0 (by norm_num) (by simpa using h)]
  simp

/-- The checked reconstruction on an in-range list. -/
lemma from_bits_of_le (W : Nat) (bits : List Bool)
    (h : bits.length ≤ W) :
    from_bits W bits = some (ofBits bits) := by
  rw [from_bits, if_pos h]
  exact from_bits_unchecked_eq W bits
    (fun j hj => lt_of_lt_of_le (getD_true_lt_length bits j hj) h)

/-- Bit `j` of the value of a bit list is element `j` of the list. -/
lemma testBit_ofBits (bits : List Bool) :
    ∀ j, (ofBits bits).testBit j = bits.getD j false := by
  induction bits with
  | nil =>
    intro j
    simp [ofBits]
  | cons b rest ih =>
    intro j
    cases j with
    | zero =>
      rw [Nat.testBit_zero]
      cases b <;> simp [ofBits, Nat.add_mul_mod_self_left, Nat.mul_mod_right]
    | succ j =>
      rw [Nat.testBit_add_one]
      have hdiv : ofBits (b :: rest) / 2 = ofBits rest := by
        cases b <;> simp [ofBits] <;> omega
      rw [hdiv, ih j]
      rfl

/-- The value of the first `u` extracted bits is `v mod 2 ^ u`. -/
lemma ofBits_range_testBit (u : Nat) : ∀ v : Nat,
    ofBits ((List.range u).map (fun i => v.testBit i)) = v % 2 ^ u := by
  induction u with
  | zero =>
    intro v
    simp [ofBits, Nat.mod_one]
  | succ u ih =>
    intro v
    rw [List.range_succ_eq_map, List.map_cons, List.map_map]
    have hcomp : (List.range u).map ((fun i => v.testBit i) ∘ Nat.succ) =
        (List.range u).map (fun i => (v / 2).testBit i) := by
      apply List.map_congr_left
      intro i _
      simp [Function.comp, Nat.testBit_add_one]
    rw [hcomp, ofBits, ih (v / 2)]
    have hmul : (2 : Nat) ^ (u + 1) = 2 * 2 ^ u := by ring
    rw [hmul, Nat.mod_mul]
    have h2 : v % 2 = if v.testBit 0 then 1 else 0 := by
      rw [Nat.testBit_zero]
      rcases Nat.mod_two_eq_zero_or_one v with h | h <;> simp [h]
    rw [h2]

/-- The spec's per-bit formula `((v >> i) & 1) == 1` agrees with
`Nat.testBit`. -/
lemma testBit_eq_shift_and (v i : Nat) :
    v.testBit i = ((v >>> i) &&& 1 == 1) := by
  rw [Nat.testBit_to_div_mod, Nat.and_one_is_mod, Nat.shiftRight_eq_div_pow]
  by_cases h : v / 2 ^ i % 2 = 1 <;> simp [h]

/-- Indexing a mapped range. -/
lemma getD_map_range (f : Nat → Bool) (W i : Nat) (h : i < W) :
    ((List.range W).map f).getD i false = f i := by
  rw [List.getD_eq_getElem?_getD, List.getElem?_map, List.getElem?_range h]
  rfl

-- Sanity checks against the crate's own doc examples.
example : as_bits 8 5 =
    some [true, false, true, false, false, false, false, false] := by decide
example : as_bits_until 64 5 4 = some [true, false, true, false] := by decide
example : from_bits 8 [true, true, true, true] = some 15 := by decide
example : from_bits 64 [true] = some 1 := by decide
example : as_bits_until 8 0 9 = none := by decide
example : from_bits 8 [false, false, false, false, false, false, false,
    false, false] = none := by decide
example : from_bits_unchecked 2 [true, false, false, false] = some 1 := by
  decide
example : from_bits_unchecked 2 [false, false, true] = none := by decide

/-! ## Claims -/

/-- C1: for every width W in {8, 16, 32, 64} and every W-bit value v,
`from_bits (as_bits v) = v`: reconstructing the full extracted bit
sequence returns the original value. -/
theorem roundtrip_full (W v : Nat)
    (hW : W = 8 ∨ W = 16 ∨ W = 32 ∨ W = 64) (hv : v < 2 ^ W) :
    (as_bits W v).bind (from_bits W) = some v := by
  rw [as_bits, as_bits_until_unchecked_of_le W v W (le_refl W),
    Option.some_bind, from_bits_of_le W _ (by simp),
    ofBits_range_testBit W v, Nat.mod_eq_of_lt hv]

theorem roundtrip_full_witness :
    (8 = 8 ∨ 8 = 16 ∨ 8 = 32 ∨ 8 = 64) ∧ 5 < 2 ^ 8 ∧
      (as_bits 8 5).bind (from_bits 8) = some 5 :=
  ⟨Or.inl rfl, by norm_num, roundtrip_full 8 5 (Or.inl rfl) (by norm_num)⟩

/-- C2: for every width W in {8, 16, 32, 64}, W-bit value v and
`until ≤ W`, `from_bits (as_bits_until v until) = v mod 2 ^ until`:
the truncated round trip clears all bits at index ≥ until. -/
theorem roundtrip_truncated (W v u : Nat)
    (hW : W = 8 ∨ W = 16 ∨ W = 32 ∨ W = 64) (hv : v < 2 ^ W)
    (hu : u ≤ W) :
    (as_bits_until W v u).bind (from_bits W) = some (v % 2 ^ u) := by
  rw [as_bits_until, if_pos hu, as_bits_until_unchecked_of_le W v u hu,
    Option.some_bind, from_bits_of_le W _ (by simpa using hu),
    ofBits_range_testBit u v]

theorem roundtrip_truncated_witness :
    (8 = 8 ∨ 8 = 16 ∨ 8 = 32 ∨ 8 = 64) ∧ 13 < 2 ^ 8 ∧ 3 ≤ 8 ∧
      (as_bits_until 8 13 3).bind (from_bits 8) = some (13 % 2 ^ 3) :=
  ⟨Or.inl rfl, by norm_num, by norm_num,
    roundtrip_truncated 8 13 3 (Or.inl rfl) (by norm_num) (by norm_num)⟩

/-- C3: for every width W in {8, 16, 32, 64} and every W-bit value v,
`as_bits v` returns exactly W booleans, LSB-first, with element i equal
to `((v >> i) & 1) == 1`. -/
theorem as_bits_spec (W v : Nat)
    (hW : W = 8 ∨ W = 16 ∨ W = 32 ∨ W = 64) (hv : v < 2 ^ W) :
    ∃ l, as_bits W v = some l ∧ l.length = W ∧
      ∀ i, i < W → l.getD i false = ((v >>> i) &&& 1 == 1) := by
  refine ⟨(List.range W).map (fun i => v.testBit i), ?_, by simp, ?_⟩
  · rw [as_bits, as_bits_until_unchecked_of_le W v W (le_refl W)]
  · intro i hi
    rw [getD_map_range _ W i hi, testBit_eq_shift_and]

theorem as_bits_spec_witness :
    (8 = 8 ∨ 8 = 16 ∨ 8 = 32 ∨ 8 = 64) ∧ 5 < 2 ^ 8 ∧
      ∃ l, as_bits 8 5 = some l ∧ l.length = 8 ∧
        ∀ i, i < 8 → l.getD i false = ((5 >>> i) &&& 1 == 1) :=
  ⟨Or.inl rfl, by norm_num, as_bits_spec 8 5 (Or.inl rfl) (by norm_num)⟩

/-- C4: for every width W in {8, 16, 32, 64}, W-bit value v and
`0 ≤ until ≤ W`, `as_bits_until v until` succeeds and returns exactly
`until` booleans whose element i is bit i of v; `until = 0` is not an
error and yields the empty sequence. -/
theorem as_bits_until_spec (W v u : Nat)
    (hW : W = 8 ∨ W = 16 ∨ W = 32 ∨ W = 64) (hv : v < 2 ^ W)
    (hu : u ≤ W) :
    ∃ l, as_bits_until W v u = some l ∧ l.length = u ∧
      (∀ i, i < u → l.getD i false = ((v >>> i) &&& 1 == 1)) ∧
      (u = 0 → l = []) := by
  refine ⟨(List.range u).map (fun i => v.testBit i), ?_, by simp, ?_, ?_⟩
  · rw [as_bits_until, if_pos hu, as_bits_until_unchecked_of_le W v u hu]
  · intro i hi
    rw [getD_map_range _ u i hi, testBit_eq_shift_and]
  · intro h0
    subst h0
    rfl

theorem as_bits_until_spec_witness :
    (64 = 8 ∨ 64 = 16 ∨ 64 = 32 ∨ 64 = 64) ∧ 5 < 2 ^ 64 ∧ 0 ≤ 64 ∧
      ∃ l, as_bits_until 64 5 0 = some l ∧ l.length = 0 ∧
        (∀ i, i < 0 → l.getD i false = ((5 >>> i) &&& 1 == 1)) ∧
        (0 = 0 → l = []) :=
  ⟨by norm_num, by norm_num, by norm_num,
    as_bits_until_spec 64 5 0 (by norm_num) (by norm_num) (by norm_num)⟩

/-- C5: for every width W in {8, 16, 32, 64} and every boolean sequence
of length L ≤ W, `from_bits bits` returns the W-bit value whose bit i
equals `bits[i]` for i < L and is 0 for i ≥ L (missing high-order bits
are zero-padded). -/
theorem from_bits_spec (W : Nat) (bits : List Bool)
    (hW : W = 8 ∨ W = 16 ∨ W = 32 ∨ W = 64)
    (hL : bits.length ≤ W) :
    ∃ r, from_bits W bits = some r ∧
      (∀ i, i < bits.length → r.testBit i = bits.getD i false) ∧
      (∀ i, bits.length ≤ i → r.testBit i = false) := by
  refine ⟨ofBits bits, from_bits_of_le W bits hL, ?_, ?_⟩
  · intro i _
    exact testBit_ofBits bits i
  · intro i hi
    rw [testBit_ofBits bits i, List.getD_eq_default bits false hi]

theorem from_bits_spec_witness :
    (64 = 8 ∨ 64 = 16 ∨ 64 = 32 ∨ 64 = 64) ∧
      (List.length [true] ≤ 64) ∧
      ∃ r, from_bits 64 [true] = some r ∧
        (∀ i, i < List.length [true] →
          r.testBit i = List.getD [true] i false) ∧
        (∀ i, List.length [true] ≤ i → r.testBit i = false) :=
  ⟨by norm_num, by norm_num,
    from_bits_spec 64 [true] (by norm_num) (by norm_num)⟩

/-- C6: for every width W in {8, 16, 32, 64}, `as_bits_until v until`
fails (producing no result) exactly when `until > W`, and
`from_bits bits` fails exactly when `bits` is longer than W; in-range
inputs are never clamped, truncated or wrapped into a failure. -/
theorem checked_failure_iff (W v u : Nat) (bits : List Bool)
    (hW : W = 8 ∨ W = 16 ∨ W = 32 ∨ W = 64) :
    (as_bits_until W v u = none ↔ W < u) ∧
      (from_bits W bits = none ↔ W < bits.length) := by
  constructor
  · constructor
    · intro h
      by_contra hu
      rw [as_bits_until, if_pos (by omega),
        as_bits_until_unchecked_of_le W v u (by omega)] at h
      exact Option.some_ne_none _ h
    · intro h
      rw [as_bits_until, if_neg (by omega)]
  · constructor
    · intro h
      by_contra hl
      rw [from_bits_of_le W bits (by omega)] at h
      exact Option.some_ne_none _ h
    · intro h
      rw [from_bits, if_neg (by omega)]

theorem checked_failure_iff_witness :
    (8 = 8 ∨ 8 = 16 ∨ 8 = 32 ∨ 8 = 64) ∧
      ((as_bits_until 8 5 9 = none ↔ 8 < 9) ∧
        (from_bits 8 [true, true, true, true] = none ↔
          8 < List.length [true, true, true, true])) :=
  ⟨Or.inl rfl, checked_failure_iff 8 5 9 [true, true, true, true] (Or.inl rfl)⟩

/-- C7: for every width W in {8, 16, 32, 64}, under their preconditions
the unchecked variants produce output identical to the checked ones:
`as_bits_until_unchecked v u = as_bits_until v u` for `u ≤ W`, and
`from_bits_unchecked bits = from_bits bits` for `bits` of length ≤ W. -/
theorem unchecked_eq_checked (W v u : Nat) (bits : List Bool)
    (hW : W = 8 ∨ W = 16 ∨ W = 32 ∨ W = 64)
    (hu : u ≤ W) (hb : bits.length ≤ W) :
    as_bits_until_unchecked W v u = as_bits_until W v u ∧
      from_bits_unchecked W bits = from_bits W bits := by
  constructor
  · rw [as_bits_until, if_pos hu]
  · rw [from_bits, if_pos hb]

theorem unchecked_eq_checked_witness :
    (8 = 8 ∨ 8 = 16 ∨ 8 = 32 ∨ 8 = 64) ∧ 4 ≤ 8 ∧
      List.length [true, true, true, true] ≤ 8 ∧
      (as_bits_until_unchecked 8 5 4 = as_bits_until 8 5 4 ∧
        from_bits_unchecked 8 [true, true, true, true] =
          from_bits 8 [true, true, true, true]) :=
  ⟨Or.inl rfl, by norm_num, by norm_num,
    unchecked_eq_checked 8 5 4 [true, true, true, true] (Or.inl rfl)
      (by norm_num) (by norm_num)⟩

/-- C8: for every width W in {8, 16, 32, 64} and every W-bit value v,
`as_bits_until v W` returns exactly the same sequence as `as_bits v`. -/
theorem as_bits_until_full_width (W v : Nat)
    (hW : W = 8 ∨ W = 16 ∨ W = 32 ∨ W = 64) (hv : v < 2 ^ W) :
    as_bits_until W v W = as_bits W v := by
  rw [as_bits_until, if_pos (le_refl W), as_bits]

theorem as_bits_until_full_width_witness :
    (8 = 8 ∨ 8 = 16 ∨ 8 = 32 ∨ 8 = 64) ∧ 5 < 2 ^ 8 ∧
      as_bits_until 8 5 8 = as_bits 8 5 :=
  ⟨Or.inl rfl, by norm_num,
    as_bits_until_full_width 8 5 (Or.inl rfl) (by norm_num)⟩

/-- Appending `false` bits does not change the value of a bit list. -/
lemma ofBits_append_replicate_false (l : List Bool) (k : Nat) :
    ofBits (l ++ List.replicate k false) = ofBits l := by
  induction l with
  | nil =>
    simp only [List.nil_append]
    induction k with
    | zero => rfl
    | succ k ihk => simpa [List.replicate_succ, ofBits] using ihk
  | cons b rest ih => simp [ofBits, ih]

/-- C9: for every width W in {8, 16, 32, 64} and every boolean sequence
shorter than W, appending trailing `false` bits (up to length W) does
not change the reconstructed value. -/
theorem padding_false_invariant (W k : Nat) (bits : List Bool)
    (hW : W = 8 ∨ W = 16 ∨ W = 32 ∨ W = 64)
    (hL : bits.length < W) (hk : bits.length + k ≤ W) :
    from_bits W (bits ++ List.replicate k false) = from_bits W bits := by
  rw [from_bits_of_le W bits (by omega),
    from_bits_of_le W _ (by simpa using hk),
    ofBits_append_replicate_false]

theorem padding_false_invariant_witness :
    (8 = 8 ∨ 8 = 16 ∨ 8 = 32 ∨ 8 = 64) ∧
      List.length [true, false, true] < 8 ∧
      List.length [true, false, true] + 5 ≤ 8 ∧
      from_bits 8 ([true, false, true] ++ List.replicate 5 false) =
        from_bits 8 [true, false, true] :=
  ⟨Or.inl rfl, by norm_num, by norm_num,
    padding_false_invariant 8 5 [true, false, true] (Or.inl rfl)
      (by norm_num) (by norm_num)⟩

/-- C10 (implicit): `from_bits_unchecked` evaluates `1 << i` only at
indices whose bit is `true`; hence on any slice — even one longer than
W — whose `true` elements all sit at indices below W, it performs no
out-of-width shift and returns the value whose set bits are exactly
those indices.  The effective safety precondition is weaker than the
documented `length ≤ W`. -/
theorem from_bits_unchecked_weak_precondition (W : Nat) (bits : List Bool)
    (h : ∀ j, bits.getD j false = true → j < W) :
    ∃ r, from_bits_unchecked W bits = some r ∧
      ∀ j, r.testBit j = bits.getD j false :=
  ⟨ofBits bits, from_bits_unchecked_eq W bits h, testBit_ofBits bits⟩

theorem from_bits_unchecked_weak_precondition_witness :
    (∀ j, List.getD [true, false, false, false] j false = true → j < 2) ∧
      ∃ r, from_bits_unchecked 2 [true, false, false, false] = some r ∧
        ∀ j, r.testBit j = List.getD [true, false, false, false] j false :=
  ⟨fun j hj => by
      have h4 : j < 4 := getD_true_lt_length [true, false, false, false] j hj
      interval_cases j <;> (revert hj; decide),
    from_bits_unchecked_weak_precondition 2 [true, false, false, false]
      (fun j hj => by
        have h4 : j < 4 := getD_true_lt_length [true, false, false, false] j hj
        interval_cases j <;> (revert hj; decide))⟩
